import Mathlib

/-!
Shallow embedding of the single-processor SPT task scheduler from
`src/main.rs` (`execution_order` and `execution_order_original`),
with proofs of the specification's claims about it.

Modelling conventions:
* `u32` clock arithmetic is modelled on `Nat` with an explicit `% 2^32`
  at the one place the source performs an addition (`time += duration`).
* Rust's `BTreeMap<(u32, u64), Task>` is modelled as an association list
  kept strictly sorted by key, where inserting an already-present key
  overwrites the stored value (as `BTreeMap::extend` does).
* Rust's stable `sort_by_key(|t| t.queued_at)` is modelled with the
  (stable) insertion sort from Mathlib, keyed on `queued_at`.
* The `while` loop is modelled by a step function `stepSim` (one loop
  iteration: arrival scan, then execution of the minimum-key ready task)
  driven by a fuel counter; `simMeasure` is proved to bound the number of
  iterations, and the fuel used is exactly that bound.
-/

namespace Sched

/-- The `Task` record from the source: `id : u64`, `queued_at : u32`,
`execution_duration : u32`. -/
structure Task where
  id : Nat
  queued_at : Nat
  execution_duration : Nat
deriving DecidableEq

/-- `2^32`, the modulus of `u32` arithmetic. -/
def U32 : Nat := 4294967296

/-- The ready-map key `(execution_duration, id)` used in the source. -/
abbrev Key := Nat × Nat

/-- The key under which a task is inserted into the ready map:
`(task.execution_duration, task.id)`. -/
def taskKey (t : Task) : Key := (t.execution_duration, t.id)

/-- Lexicographic strict order on keys, the `Ord` instance of
`(u32, u64)` used by the `BTreeMap`. -/
def keyLt (a b : Key) : Prop := a.1 < b.1 ∨ (a.1 = b.1 ∧ a.2 < b.2)

instance : DecidableRel keyLt := fun a b => by
  unfold keyLt; infer_instance

/-- Insertion into the sorted association list modelling the `BTreeMap`:
an equal key overwrites the stored value. -/
def btInsert (k : Key) (v : Task) : List (Key × Task) → List (Key × Task)
  | [] => [(k, v)]
  | e :: rest =>
    if k = e.1 then (k, v) :: rest
    else if keyLt k e.1 then (k, v) :: e :: rest
    else e :: btInsert k v rest

/-- `BTreeMap::extend`: insert the drained tasks one by one, in backlog
order, each keyed by `taskKey`. -/
def btExtend (q : List (Key × Task)) : List Task → List (Key × Task)
  | [] => q
  | t :: rest => btExtend (btInsert (taskKey t) t q) rest

/-- The predicate `task.queued_at <= time` used by the arrival scans of
both implementations. -/
def arrived (time : Nat) (t : Task) : Bool := t.queued_at ≤ time

/-- `Iterator::rposition`: index of the last element satisfying `p`. -/
def rposition (p : Task → Bool) : List Task → Option Nat
  | [] => none
  | t :: rest =>
    match rposition p rest with
    | some i => some (i + 1)
    | none => if p t then some 0 else none

/-- The mutable state of the simulation loop in `execution_order`:
the sorted backlog `tasks`, the ready map `q`, the clock `time` and the
output accumulator `executed`. -/
structure SimState where
  tasks : List Task
  q : List (Key × Task)
  time : Nat
  executed : List Nat
deriving DecidableEq

/-- The arrival scan at the top of each loop iteration: if the backlog is
non-empty, either drain every task with `queued_at ≤ time` into the ready
map (`rposition` finds the last such index in the sorted backlog), or, if
none has arrived, set the clock to the head of the backlog. -/
def arrivalPhase (s : SimState) : SimState :=
  match s.tasks with
  | [] => s
  | t0 :: _ =>
    match rposition (arrived s.time) s.tasks with
    | some i =>
      { s with tasks := s.tasks.drop (i + 1),
               q := btExtend s.q (s.tasks.take (i + 1)) }
    | none => { s with time := t0.queued_at }

/-- The execution step at the bottom of each loop iteration
(`remove_first` on the `BTreeMap`): pop the minimum-key entry, advance the
clock by its duration (u32 addition) and append its id to the output. -/
def execPhase (s : SimState) : SimState :=
  match s.q with
  | [] => s
  | e :: rest =>
    { s with q := rest,
             time := (s.time + e.2.execution_duration) % U32,
             executed := s.executed ++ [e.2.id] }

/-- One full iteration of the `while` loop. -/
def stepSim (s : SimState) : SimState := execPhase (arrivalPhase s)

/-- `n` iterations of the loop body. -/
def stepN (s : SimState) : Nat → SimState
  | 0 => s
  | n + 1 => stepN (stepSim s) n

/-- Bound on the number of remaining loop iterations: every non-final
iteration strictly decreases this measure. -/
def simMeasure (s : SimState) : Nat :=
  2 * (s.tasks.length + s.q.length) +
    match s.tasks with
    | [] => 0
    | t0 :: _ => if t0.queued_at ≤ s.time then 0 else 1

/-- The `while !tasks.is_empty() || !q.is_empty()` loop, driven by fuel. -/
def simLoopFuel : Nat → SimState → List Nat
  | 0, s => s.executed
  | f + 1, s =>
    if s.tasks.isEmpty && s.q.isEmpty then s.executed
    else simLoopFuel f (stepSim s)

/-- The sort key of `tasks.sort_by_key(|task| task.queued_at)`. -/
def leQ (a b : Task) : Prop := a.queued_at ≤ b.queued_at

instance : DecidableRel leQ := fun a b => by unfold leQ; infer_instance

instance : IsTotal Task leQ := ⟨fun a b => Nat.le_total a.queued_at b.queued_at⟩

instance : IsTrans Task leQ := ⟨fun _ _ _ h1 h2 => Nat.le_trans h1 h2⟩

/-- The stable sort by `queued_at` performed at the top of
`execution_order`. -/
def sortTasks (tasks : List Task) : List Task := List.insertionSort leQ tasks

/-- The state at the top of the loop: sorted backlog, empty ready map,
`time = 0`, empty output. -/
def initState (tasks : List Task) : SimState :=
  { tasks := sortTasks tasks, q := [], time := 0, executed := [] }

/-- `execution_order` from `src/main.rs`. -/
def execution_order (tasks : List Task) : List Nat :=
  simLoopFuel (simMeasure (initState tasks)) (initState tasks)

/-- `Iterator::min_by_key(|t| t.execution_duration)`: the first element
with minimal duration (Rust's `min_by_key` returns the first of equal
minima). -/
def minByDur : List Task → Option Task
  | [] => none
  | t :: rest =>
    match minByDur rest with
    | none => some t
    | some m => if t.execution_duration ≤ m.execution_duration then some t else some m

/-- `tasks.remove(tasks.iter().position(|t| t.id == i).unwrap())`:
remove the first task with the given id. -/
def removeFirstById (i : Nat) : List Task → List Task
  | [] => []
  | t :: rest => if t.id = i then rest else t :: removeFirstById i rest

/-- The `loop` of `execution_order_original`, driven by fuel: pick the
first minimal-duration task among the arrived prefix of the sorted
backlog; if none has arrived, jump the clock to the head of the backlog. -/
def origLoopFuel : Nat → List Task → Nat → List Nat → List Nat
  | 0, _, _, result => result
  | f + 1, tasks, time, result =>
    match minByDur (tasks.takeWhile (arrived time)) with
    | some ct =>
      if tasks.isEmpty then result ++ [ct.id]
      else origLoopFuel f (removeFirstById ct.id tasks)
        ((time + ct.execution_duration) % U32) (result ++ [ct.id])
    | none =>
      match tasks with
      | [] => result
      | t0 :: _ => origLoopFuel f tasks t0.queued_at result

/-- `execution_order_original` from `src/main.rs`. -/
def execution_order_original (tasks : List Task) : List Nat :=
  if tasks.isEmpty then []
  else origLoopFuel (2 * tasks.length + 1) (sortTasks tasks) 0 []

/-- The entry (if any) that the execution step of the next loop iteration
will pop: the minimum-key entry of the ready map after the arrival scan. -/
def popOf (s : SimState) : Option (Key × Task) := (arrivalPhase s).q.head?

/-- The u32 addition `time + execution_duration` performed by the next
loop iteration (if it executes a task) does not overflow. -/
def StepNoOverflow (s : SimState) : Prop :=
  match popOf s with
  | none => True
  | some e => (arrivalPhase s).time + e.2.execution_duration < U32

instance (s : SimState) : Decidable (StepNoOverflow s) := by
  unfold StepNoOverflow; split <;> infer_instance

/-! ### Basic order facts about the ready-map key -/

theorem keyLt_trans {a b c : Key} (h1 : keyLt a b) (h2 : keyLt b c) : keyLt a c := by
  unfold keyLt at *; omega

theorem keyLt_irrefl (a : Key) : ¬ keyLt a a := by
  unfold keyLt; omega

theorem keyLt_asymm {a b : Key} (h : keyLt a b) : ¬ keyLt b a := by
  unfold keyLt at *; omega

theorem keyLt_trichotomy (a b : Key) : keyLt a b ∨ a = b ∨ keyLt b a := by
  rcases a with ⟨a1, a2⟩
  rcases b with ⟨b1, b2⟩
  simp only [keyLt, Prod.mk.injEq]
  omega

/-- The ordering invariant of the ready map: entries strictly increasing
in key. -/
def QSorted (q : List (Key × Task)) : Prop :=
  List.Pairwise (fun e1 e2 => keyLt e1.1 e2.1) q

theorem qsorted_key_unique {q : List (Key × Task)} (hs : QSorted q)
    {e1 e2 : Key × Task} (h1 : e1 ∈ q) (h2 : e2 ∈ q) (hk : e1.1 = e2.1) :
    e1 = e2 := by
  induction q with
  | nil => cases h1
  | cons a l ih =>
    unfold QSorted at hs; rw [List.pairwise_cons] at hs
    rcases List.mem_cons.mp h1 with h1a | h1l
    · rcases List.mem_cons.mp h2 with h2a | h2l
      · rw [h1a, h2a]
      · exfalso
        have hlt := hs.1 e2 h2l
        rw [h1a] at hk
        rw [← hk] at hlt
        exact keyLt_irrefl _ hlt
    · rcases List.mem_cons.mp h2 with h2a | h2l
      · exfalso
        have hlt := hs.1 e1 h1l
        rw [h2a] at hk
        rw [hk] at hlt
        exact keyLt_irrefl _ hlt
      · exact ih hs.2 h1l h2l

theorem qsorted_head_min {e : Key × Task} {l : List (Key × Task)}
    (hs : QSorted (e :: l)) {e' : Key × Task} (h : e' ∈ e :: l) :
    e' = e ∨ keyLt e.1 e'.1 := by
  unfold QSorted at hs; rw [List.pairwise_cons] at hs
  rcases List.mem_cons.mp h with rfl | h
  · exact Or.inl rfl
  · exact Or.inr (hs.1 e' h)

/-! ### `rposition` -/

theorem rposition_none {p : Task → Bool} {l : List Task}
    (h : rposition p l = none) : ∀ x ∈ l, ¬ p x = true := by
  induction l with
  | nil => intro x hx; cases hx
  | cons t rest ih =>
    intro x hx
    simp only [rposition] at h
    rcases hpr : rposition p rest with _ | i
    · rw [hpr] at h
      rcases List.mem_cons.mp hx with rfl | hx
      · intro hp
        simp [hp] at h
      · exact ih hpr x hx
    · rw [hpr] at h; cases h

theorem rposition_none_of {p : Task → Bool} {l : List Task}
    (h : ∀ x ∈ l, ¬ p x = true) : rposition p l = none := by
  induction l with
  | nil => rfl
  | cons t rest ih =>
    simp only [rposition]
    rw [ih fun x hx => h x (List.mem_cons_of_mem _ hx)]
    simp [h t (List.mem_cons_self _ _)]

theorem rposition_lt_length {p : Task → Bool} {l : List Task} {i : Nat}
    (h : rposition p l = some i) : i < l.length := by
  induction l generalizing i with
  | nil => cases h
  | cons t rest ih =>
    simp only [rposition] at h
    rcases hpr : rposition p rest with _ | j
    · rw [hpr] at h
      by_cases hp : p t
      · simp [hp] at h
        simp only [List.length_cons]
        omega
      · simp [hp] at h
    · rw [hpr] at h
      cases h
      have hj := ih hpr
      simp only [List.length_cons]
      omega

theorem rposition_drop {p : Task → Bool} {l : List Task} {i : Nat}
    (h : rposition p l = some i) : ∀ x ∈ l.drop (i + 1), ¬ p x = true := by
  induction l generalizing i with
  | nil => cases h
  | cons t rest ih =>
    simp only [rposition] at h
    rcases hpr : rposition p rest with _ | j
    · rw [hpr] at h
      by_cases hp : p t
      · simp [hp] at h
        subst h
        exact rposition_none hpr
      · simp [hp] at h
    · rw [hpr] at h
      cases h
      exact ih hpr

theorem rposition_take_arrived {time : Nat} {l : List Task} {i : Nat}
    (hs : List.Pairwise leQ l) (h : rposition (arrived time) l = some i) :
    ∀ x ∈ l.take (i + 1), arrived time x = true := by
  induction l generalizing i with
  | nil => cases h
  | cons t rest ih =>
    simp only [rposition] at h
    rw [List.pairwise_cons] at hs
    rcases hpr : rposition (arrived time) rest with _ | j
    · rw [hpr] at h
      by_cases hp : arrived time t
      · simp [hp] at h
        subst h
        intro x hx
        simp at hx
        simpa [hx] using hp
      · simp [hp] at h
    · rw [hpr] at h
      cases h
      intro x hx
      rcases List.mem_cons.mp (List.mem_of_mem_take hx) with rfl | hxr
      · -- the head arrives because some later element of the sorted tail does
        have hj : j < rest.length := rposition_lt_length hpr
        have htail := ih hs.2 hpr
        obtain ⟨w, hw⟩ : ∃ w, w ∈ rest.take (j + 1) := by
          cases hrest : rest with
          | nil => rw [hrest] at hj; simp at hj
          | cons r rs => exact ⟨r, by rw [List.take_succ_cons]; exact List.mem_cons_self _ _⟩
        have hwrest : w ∈ rest := List.mem_of_mem_take hw
        have hle : leQ x w := hs.1 w hwrest
        have := htail w hw
        unfold arrived at *
        unfold leQ at hle
        simp only [decide_eq_true_eq] at *
        omega
      · rcases List.mem_cons.mp hx with rfl | hx'
        · have hj : j < rest.length := rposition_lt_length hpr
          have htail := ih hs.2 hpr
          obtain ⟨w, hw⟩ : ∃ w, w ∈ rest.take (j + 1) := by
            cases hrest : rest with
            | nil => rw [hrest] at hj; simp at hj
            | cons r rs => exact ⟨r, by rw [List.take_succ_cons]; exact List.mem_cons_self _ _⟩
          have hwrest : w ∈ rest := List.mem_of_mem_take hw
          have hle : leQ x w := hs.1 w hwrest
          have := htail w hw
          unfold arrived at *
          unfold leQ at hle
          simp only [decide_eq_true_eq] at *
          omega
        · exact ih hs.2 hpr x hx'

/-! ### `btInsert` and `btExtend` -/

theorem btInsert_ne_nil (k : Key) (v : Task) (m : List (Key × Task)) :
    btInsert k v m ≠ [] := by
  cases m with
  | nil => simp [btInsert]
  | cons e rest =>
    simp only [btInsert]
    split
    · simp
    · split <;> simp

theorem btInsert_length_le (k : Key) (v : Task) (m : List (Key × Task)) :
    (btInsert k v m).length ≤ m.length + 1 := by
  induction m with
  | nil => simp [btInsert]
  | cons e rest ih =>
    simp only [btInsert]
    split
    · simp
    · split
      · simp
      · simp only [List.length_cons]
        omega

theorem btInsert_subset {k : Key} {v : Task} {m : List (Key × Task)}
    {e : Key × Task} (h : e ∈ btInsert k v m) : e = (k, v) ∨ e ∈ m := by
  induction m with
  | nil =>
    simp [btInsert] at h
    exact Or.inl h
  | cons a rest ih =>
    simp only [btInsert] at h
    split at h
    · rcases List.mem_cons.mp h with h | h
      · exact Or.inl h
      · exact Or.inr (List.mem_cons_of_mem _ h)
    · split at h
      · rcases List.mem_cons.mp h with h | h
        · exact Or.inl h
        · exact Or.inr h
      · rcases List.mem_cons.mp h with h | h
        · exact Or.inr (by rw [h]; exact List.mem_cons_self _ _)
        · rcases ih h with h | h
          · exact Or.inl h
          · exact Or.inr (List.mem_cons_of_mem _ h)

theorem btInsert_self_mem (k : Key) (v : Task) (m : List (Key × Task)) :
    (k, v) ∈ btInsert k v m := by
  induction m with
  | nil => simp [btInsert]
  | cons a rest ih =>
    simp only [btInsert]
    split
    · exact List.mem_cons_self _ _
    · split
      · exact List.mem_cons_self _ _
      · exact List.mem_cons_of_mem _ ih

theorem btInsert_perm {k : Key} {v : Task} {m : List (Key × Task)}
    (h : ∀ e ∈ m, e.1 ≠ k) : (btInsert k v m).Perm ((k, v) :: m) := by
  induction m with
  | nil => simp [btInsert]
  | cons a rest ih =>
    have ha : a.1 ≠ k := h a (List.mem_cons_self _ _)
    have hrest : ∀ e ∈ rest, e.1 ≠ k := fun e he => h e (List.mem_cons_of_mem _ he)
    simp only [btInsert]
    rw [if_neg (fun hh => ha hh.symm)]
    by_cases hlt : keyLt k a.1
    · rw [if_pos hlt]
    · rw [if_neg hlt]
      exact List.Perm.trans ((ih hrest).cons a) (List.Perm.swap _ _ _)

theorem btInsert_sorted {k : Key} {v : Task} {m : List (Key × Task)}
    (hs : QSorted m) : QSorted (btInsert k v m) := by
  induction m with
  | nil => simp [btInsert, QSorted]
  | cons a rest ih =>
    unfold QSorted at hs ⊢
    rw [List.pairwise_cons] at hs
    simp only [btInsert]
    by_cases hkey : k = a.1
    · rw [if_pos hkey]
      rw [List.pairwise_cons]
      refine ⟨fun e he => ?_, hs.2⟩
      rw [show ((k, v) : Key × Task).1 = k from rfl, hkey]
      exact hs.1 e he
    · rw [if_neg hkey]
      by_cases hlt : keyLt k a.1
      · rw [if_pos hlt]
        rw [List.pairwise_cons]
        constructor
        · intro e he
          rcases List.mem_cons.mp he with rfl | he
          · exact hlt
          · exact keyLt_trans hlt (hs.1 e he)
        · rw [List.pairwise_cons]
          exact hs
      · rw [if_neg hlt]
        rw [List.pairwise_cons]
        constructor
        · intro e he
          rcases btInsert_subset he with rfl | he
          · rcases keyLt_trichotomy k a.1 with h' | h' | h'
            · exact absurd h' hlt
            · exact absurd h' hkey
            · exact h'
          · exact hs.1 e he
        · exact ih hs.2

/-- The ids of the tasks stored in the ready map. -/
def qIds (q : List (Key × Task)) : List Nat := q.map (fun e => e.2.id)

theorem btExtend_length_le (q : List (Key × Task)) (batch : List Task) :
    (btExtend q batch).length ≤ q.length + batch.length := by
  induction batch generalizing q with
  | nil => simp [btExtend]
  | cons b rest ih =>
    simp only [btExtend]
    have h1 := btInsert_length_le (taskKey b) b q
    have h2 := ih (btInsert (taskKey b) b q)
    simp only [List.length_cons]
    omega

theorem btExtend_ne_nil {q : List (Key × Task)} {batch : List Task}
    (h : q ≠ [] ∨ batch ≠ []) : btExtend q batch ≠ [] := by
  induction batch generalizing q with
  | nil =>
    rcases h with h | h
    · simpa [btExtend] using h
    · exact absurd rfl h
  | cons b rest ih =>
    simp only [btExtend]
    exact ih (Or.inl (btInsert_ne_nil _ _ _))

theorem btExtend_sorted {q : List (Key × Task)} {batch : List Task}
    (hs : QSorted q) : QSorted (btExtend q batch) := by
  induction batch generalizing q with
  | nil => exact hs
  | cons b rest ih => exact ih (btInsert_sorted hs)

theorem btExtend_keyfield {q : List (Key × Task)} {batch : List Task}
    (hq : ∀ e ∈ q, e.1 = taskKey e.2) :
    ∀ e ∈ btExtend q batch, e.1 = taskKey e.2 := by
  induction batch generalizing q with
  | nil => exact hq
  | cons b rest ih =>
    refine ih (fun e he => ?_)
    rcases btInsert_subset he with rfl | he
    · rfl
    · exact hq e he

theorem btExtend_perm {q : List (Key × Task)} {batch : List Task}
    (hq : ∀ e ∈ q, e.1 = taskKey e.2)
    (hnd : (batch.map Task.id ++ qIds q).Nodup) :
    (btExtend q batch).Perm (batch.map (fun t => (taskKey t, t)) ++ q) := by
  induction batch generalizing q with
  | nil => simp [btExtend]
  | cons b rest ih =>
    simp only [btExtend]
    have hbk : ∀ e ∈ q, e.1 ≠ taskKey b := by
      intro e he hke
      have hid : e.2.id = b.id := congrArg Prod.snd ((hq e he).symm.trans hke)
      rw [List.map_cons] at hnd
      rcases List.nodup_append.mp hnd with ⟨h1, h2, hdisj⟩
      refine hdisj (List.mem_cons_self _ _) ?_
      rw [← hid]
      exact List.mem_map_of_mem _ he
    have hins : (btInsert (taskKey b) b q).Perm ((taskKey b, b) :: q) :=
      btInsert_perm hbk
    have hq' : ∀ e ∈ btInsert (taskKey b) b q, e.1 = taskKey e.2 := by
      intro e he
      rcases btInsert_subset he with rfl | he
      · rfl
      · exact hq e he
    have hnd' : (rest.map Task.id ++ qIds (btInsert (taskKey b) b q)).Nodup := by
      have h2 : (qIds (btInsert (taskKey b) b q)).Perm (b.id :: qIds q) := by
        unfold qIds
        exact hins.map fun e => e.2.id
      have hperm : (rest.map Task.id ++ qIds (btInsert (taskKey b) b q)).Perm
          (b.id :: (rest.map Task.id ++ qIds q)) :=
        List.Perm.trans (List.Perm.append_left _ h2) List.perm_middle
      exact hperm.symm.nodup hnd
    refine List.Perm.trans (ih hq' hnd') ?_
    refine List.Perm.trans (List.Perm.append_left _ hins) ?_
    exact List.perm_middle

/-! ### Characterisation of the two phases, the loop measure, termination -/

theorem arrivalPhase_nil {s : SimState} (ht : s.tasks = []) : arrivalPhase s = s := by
  simp [arrivalPhase, ht]

theorem arrivalPhase_some {s : SimState} {t0 : Task} {rest0 : List Task} {i : Nat}
    (ht : s.tasks = t0 :: rest0) (hpos : rposition (arrived s.time) s.tasks = some i) :
    arrivalPhase s =
      { s with tasks := s.tasks.drop (i + 1), q := btExtend s.q (s.tasks.take (i + 1)) } := by
  rw [ht] at hpos
  simp only [arrivalPhase, ht, hpos]

theorem arrivalPhase_none {s : SimState} {t0 : Task} {rest0 : List Task}
    (ht : s.tasks = t0 :: rest0) (hpos : rposition (arrived s.time) s.tasks = none) :
    arrivalPhase s = { s with time := t0.queued_at } := by
  rw [ht] at hpos
  simp only [arrivalPhase, ht, hpos]

theorem execPhase_nil {s : SimState} (hq : s.q = []) : execPhase s = s := by
  simp [execPhase, hq]

theorem execPhase_cons {s : SimState} {e : Key × Task} {rest : List (Key × Task)}
    (hq : s.q = e :: rest) :
    execPhase s = { s with q := rest,
                           time := (s.time + e.2.execution_duration) % U32,
                           executed := s.executed ++ [e.2.id] } := by
  simp [execPhase, hq]

theorem measure_zero {s : SimState} (h : simMeasure s = 0) :
    s.tasks = [] ∧ s.q = [] := by
  unfold simMeasure at h
  rcases htasks : s.tasks with _ | ⟨t0, rest0⟩
  · rw [htasks] at h
    simp only [List.length_nil] at h
    refine ⟨rfl, List.length_eq_zero.mp ?_⟩
    omega
  · rw [htasks] at h
    simp only [List.length_cons] at h
    split at h <;> omega

theorem stepSim_done {s : SimState} (ht : s.tasks = []) (hq : s.q = []) :
    stepSim s = s := by
  simp only [stepSim, arrivalPhase, execPhase, ht, hq]

theorem stepN_succ (s : SimState) (n : Nat) :
    stepN s (n + 1) = stepSim (stepN s n) := by
  induction n generalizing s with
  | zero => rfl
  | succ n ih =>
    show stepN (stepSim s) (n + 1) = _
    rw [ih]
    rfl

theorem stepN_done {s : SimState} (ht : s.tasks = []) (hq : s.q = []) (n : Nat) :
    stepN s n = s := by
  induction n with
  | zero => rfl
  | succ n ih => rw [stepN_succ, ih, stepSim_done ht hq]

theorem measure_step_lt {s : SimState} (h : ¬(s.tasks = [] ∧ s.q = [])) :
    simMeasure (stepSim s) < simMeasure s := by
  rcases htasks : s.tasks with _ | ⟨t0, rest0⟩
  · rcases hq : s.q with _ | ⟨e, qrest⟩
    · exact absurd ⟨htasks, hq⟩ h
    · unfold stepSim
      rw [arrivalPhase_nil htasks, execPhase_cons hq]
      unfold simMeasure
      simp only [htasks, hq, List.length_nil, List.length_cons]
      omega
  · rcases hpos : rposition (arrived s.time) s.tasks with _ | i
    · have hflag : ¬ t0.queued_at ≤ s.time := by
        have hh := rposition_none hpos t0 (by rw [htasks]; exact List.mem_cons_self _ _)
        unfold arrived at hh
        simpa using hh
      rcases hq : s.q with _ | ⟨e, qrest⟩
      · have he : execPhase { s with time := t0.queued_at } =
            { s with time := t0.queued_at } := execPhase_nil (by simp [hq])
        unfold stepSim
        rw [arrivalPhase_none htasks hpos, he]
        unfold simMeasure
        simp only [htasks, hq, List.length_cons, List.length_nil]
        rw [if_pos (le_refl _), if_neg hflag]
        omega
      · have he := @execPhase_cons { s with time := t0.queued_at } e qrest
          (by simp [hq])
        unfold stepSim
        rw [arrivalPhase_none htasks hpos, he]
        unfold simMeasure
        simp only [htasks, hq, List.length_cons]
        rw [if_neg hflag]
        split <;> omega
    · have hipos : i < s.tasks.length := rposition_lt_length hpos
      have hbatch : s.tasks.take (i + 1) ≠ [] := by
        rw [htasks, List.take_succ_cons]
        simp
      rcases hqe : btExtend s.q (s.tasks.take (i + 1)) with _ | ⟨e, qrest⟩
      · exact absurd hqe (btExtend_ne_nil (Or.inr hbatch))
      · have hA := arrivalPhase_some htasks hpos
        have hlen := btExtend_length_le s.q (s.tasks.take (i + 1))
        rw [hqe] at hlen
        unfold stepSim
        rw [hA, execPhase_cons (by simpa using hqe)]
        unfold simMeasure
        simp only [List.length_drop, List.length_take, List.length_cons, htasks] at hlen hipos ⊢
        split <;> try split
        all_goals omega

theorem simLoopFuel_inv (P : SimState → Prop) (Q : List Nat → Prop)
    (hstep : ∀ s, ¬(s.tasks = [] ∧ s.q = []) → P s → P (stepSim s))
    (hdone : ∀ s, s.tasks = [] → s.q = [] → P s → Q s.executed) :
    ∀ f s, simMeasure s ≤ f → P s → Q (simLoopFuel f s) := by
  intro f
  induction f with
  | zero =>
    intro s hf hP
    rcases measure_zero (Nat.le_zero.mp hf) with ⟨ht, hq⟩
    exact hdone s ht hq hP
  | succ f ih =>
    intro s hf hP
    unfold simLoopFuel
    by_cases hdn : s.tasks.isEmpty && s.q.isEmpty
    · rw [if_pos hdn]
      rw [Bool.and_eq_true, List.isEmpty_iff, List.isEmpty_iff] at hdn
      exact hdone s hdn.1 hdn.2 hP
    · rw [if_neg hdn]
      have hnd : ¬(s.tasks = [] ∧ s.q = []) := by
        rintro ⟨h1, h2⟩
        exact hdn (by simp [h1, h2])
      have hm := measure_step_lt hnd
      exact ih (stepSim s) (by omega) (hstep s hnd hP)

theorem simLoopFuel_eq_stepN : ∀ (f : Nat) (s : SimState), simMeasure s ≤ f →
    simLoopFuel f s = (stepN s f).executed := by
  intro f
  induction f with
  | zero => intro s _; rfl
  | succ f ih =>
    intro s hf
    unfold simLoopFuel
    by_cases hdn : s.tasks.isEmpty && s.q.isEmpty
    · rw [if_pos hdn]
      rw [Bool.and_eq_true, List.isEmpty_iff, List.isEmpty_iff] at hdn
      rw [stepN_done hdn.1 hdn.2]
    · rw [if_neg hdn]
      have hnd : ¬(s.tasks = [] ∧ s.q = []) := by
        rintro ⟨h1, h2⟩
        exact hdn (by simp [h1, h2])
      have hm := measure_step_lt hnd
      rw [ih (stepSim s) (by omega)]
      rfl

theorem stepN_done_of_measure_le : ∀ (f : Nat) (s : SimState), simMeasure s ≤ f →
    (stepN s f).tasks = [] ∧ (stepN s f).q = [] := by
  intro f
  induction f with
  | zero =>
    intro s hf
    exact measure_zero (Nat.le_zero.mp hf)
  | succ f ih =>
    intro s hf
    by_cases hnd : s.tasks = [] ∧ s.q = []
    · rw [stepN_done hnd.1 hnd.2]
      exact hnd
    · have hm := measure_step_lt hnd
      exact ih (stepSim s) (by omega)

/-! ### The well-formedness invariant of loop states -/

/-- Every id mentioned in a state: output, ready map, backlog. -/
def allIds (s : SimState) : List Nat :=
  s.executed ++ (qIds s.q ++ s.tasks.map Task.id)

/-- Well-formedness of a loop state: backlog sorted by `queued_at`, ready
map strictly sorted by key, every map entry keyed by its own task's key,
and no id mentioned twice. -/
def WF (s : SimState) : Prop :=
  List.Pairwise leQ s.tasks ∧ QSorted s.q ∧
    (∀ e ∈ s.q, e.1 = taskKey e.2) ∧ (allIds s).Nodup

theorem perm_shuffle (A B C D : List Nat) :
    (A ++ ((B ++ C) ++ D)).Perm (A ++ (C ++ (B ++ D))) := by
  rw [List.perm_iff_count]
  intro a
  simp only [List.count_append]
  omega

theorem wf_batch_nodup {s : SimState} (hnd : (allIds s).Nodup) (n : Nat) :
    ((s.tasks.take n).map Task.id ++ qIds s.q).Nodup := by
  unfold allIds at hnd
  have h1 : (qIds s.q ++ s.tasks.map Task.id).Nodup :=
    (List.sublist_append_right _ _).nodup hnd
  have h2 : s.tasks.map Task.id =
      (s.tasks.take n).map Task.id ++ (s.tasks.drop n).map Task.id := by
    rw [← List.map_append, List.take_append_drop]
  rw [h2] at h1
  have h3 : (qIds s.q ++ (s.tasks.take n).map Task.id).Nodup :=
    (List.Sublist.append_left (List.sublist_append_left _ _) _).nodup h1
  exact List.perm_append_comm.nodup h3

theorem qIds_btExtend_perm {q : List (Key × Task)} {batch : List Task}
    (hq : ∀ e ∈ q, e.1 = taskKey e.2)
    (hnd : (batch.map Task.id ++ qIds q).Nodup) :
    (qIds (btExtend q batch)).Perm (batch.map Task.id ++ qIds q) := by
  have h := (btExtend_perm hq hnd).map fun e => e.2.id
  unfold qIds
  refine h.trans ?_
  rw [List.map_append, List.map_map]
  exact List.Perm.refl _

theorem wf_arrival {s : SimState} (hwf : WF s) :
    WF (arrivalPhase s) ∧ (allIds (arrivalPhase s)).Perm (allIds s) ∧
      (arrivalPhase s).executed = s.executed ∧ s.time ≤ (arrivalPhase s).time := by
  rcases htasks : s.tasks with _ | ⟨t0, rest0⟩
  · rw [arrivalPhase_nil htasks]
    exact ⟨hwf, List.Perm.refl _, rfl, Nat.le_refl _⟩
  · rcases hpos : rposition (arrived s.time) s.tasks with _ | i
    · rw [arrivalPhase_none htasks hpos]
      have hlt : ¬ t0.queued_at ≤ s.time := by
        have hh := rposition_none hpos t0 (by rw [htasks]; exact List.mem_cons_self _ _)
        unfold arrived at hh
        simpa using hh
      refine ⟨hwf, List.Perm.refl _, rfl, ?_⟩
      show s.time ≤ t0.queued_at
      omega
    · rw [arrivalPhase_some htasks hpos]
      rcases hwf with ⟨hw1, hw2, hw3, hw4⟩
      have hbnd : ((s.tasks.take (i + 1)).map Task.id ++ qIds s.q).Nodup :=
        wf_batch_nodup hw4 (i + 1)
      have hqperm : (qIds (btExtend s.q (s.tasks.take (i + 1)))).Perm
          ((s.tasks.take (i + 1)).map Task.id ++ qIds s.q) :=
        qIds_btExtend_perm hw3 hbnd
      have hids : (allIds { s with
          tasks := s.tasks.drop (i + 1),
          q := btExtend s.q (s.tasks.take (i + 1)) }).Perm (allIds s) := by
        unfold allIds
        refine List.Perm.trans (List.Perm.append_left _ (hqperm.append_right _)) ?_
        refine List.Perm.trans (perm_shuffle _ _ _ _) ?_
        have hmt : (s.tasks.take (i + 1)).map Task.id ++
            (s.tasks.drop (i + 1)).map Task.id = s.tasks.map Task.id := by
          rw [← List.map_append, List.take_append_drop]
        rw [hmt]
      refine ⟨⟨?_, ?_, ?_, ?_⟩, hids, rfl, Nat.le_refl _⟩
      · exact List.Pairwise.sublist (List.drop_sublist _ _) hw1
      · exact btExtend_sorted hw2
      · exact btExtend_keyfield hw3
      · exact hids.symm.nodup hw4

theorem wf_exec {s : SimState} (hwf : WF s) :
    WF (execPhase s) ∧ allIds (execPhase s) = allIds s := by
  rcases hq : s.q with _ | ⟨e, qrest⟩
  · rw [execPhase_nil hq]
    exact ⟨hwf, rfl⟩
  · rw [execPhase_cons hq]
    rcases hwf with ⟨hw1, hw2, hw3, hw4⟩
    have hq2 : QSorted qrest := by
      unfold QSorted at hw2 ⊢
      rw [hq] at hw2
      exact (List.pairwise_cons.mp hw2).2
    have hids : allIds { s with
        q := qrest,
        time := (s.time + e.2.execution_duration) % U32,
        executed := s.executed ++ [e.2.id] } = allIds s := by
      unfold allIds qIds
      rw [hq]
      simp [List.append_assoc]
    refine ⟨⟨hw1, hq2, ?_, ?_⟩, hids⟩
    · intro e' he'
      exact hw3 e' (by rw [hq]; exact List.mem_cons_of_mem _ he')
    · rw [hids]
      exact hw4

theorem wf_step {s : SimState} (hwf : WF s) :
    WF (stepSim s) ∧ (allIds (stepSim s)).Perm (allIds s) := by
  obtain ⟨hwA, hpermA, -, -⟩ := wf_arrival hwf
  obtain ⟨hwE, hidsE⟩ := wf_exec hwA
  refine ⟨hwE, ?_⟩
  show (allIds (execPhase (arrivalPhase s))).Perm (allIds s)
  rw [hidsE]
  exact hpermA

theorem wf_init {tasks : List Task} (hnd : (tasks.map Task.id).Nodup) :
    WF (initState tasks) := by
  refine ⟨List.sorted_insertionSort leQ tasks, List.Pairwise.nil, ?_, ?_⟩
  · intro e he
    cases he
  · show ([] ++ (qIds [] ++ (sortTasks tasks).map Task.id)).Nodup
    have hperm : ((sortTasks tasks).map Task.id).Perm (tasks.map Task.id) :=
      (List.perm_insertionSort leQ tasks).map Task.id
    simpa using hperm.symm.nodup hnd

theorem allIds_init (tasks : List Task) :
    (allIds (initState tasks)).Perm (tasks.map Task.id) := by
  show ([] ++ (qIds [] ++ (sortTasks tasks).map Task.id)).Perm _
  simpa using (List.perm_insertionSort leQ tasks).map Task.id

/-! ### Completeness of `execution_order` -/

/-- The output of `execution_order` is a permutation of the input ids,
whenever the input ids are pairwise distinct. -/
theorem execution_order_perm {tasks : List Task}
    (hnd : (tasks.map Task.id).Nodup) :
    (execution_order tasks).Perm (tasks.map Task.id) := by
  unfold execution_order
  refine simLoopFuel_inv
    (fun s => WF s ∧ (allIds s).Perm (tasks.map Task.id))
    (fun out => out.Perm (tasks.map Task.id))
    (fun s _ hP => ⟨(wf_step hP.1).1, ((wf_step hP.1).2).trans hP.2⟩)
    (fun s ht hq hP => ?_) _ _ (Nat.le_refl _)
    ⟨wf_init hnd, allIds_init tasks⟩
  have hP2 := hP.2
  unfold allIds qIds at hP2
  rw [ht, hq] at hP2
  simpa using hP2

/-! ### Progress and monotonicity of single steps -/

theorem step_progress {s : SimState} (h : ¬(s.tasks = [] ∧ s.q = [])) :
    (stepSim s).executed.length = s.executed.length + 1 ∨
      (s.q = [] ∧ ∃ t ∈ s.tasks, t.queued_at ≤ (stepSim s).time) := by
  rcases htasks : s.tasks with _ | ⟨t0, rest0⟩
  · rcases hq : s.q with _ | ⟨e, qrest⟩
    · exact absurd ⟨htasks, hq⟩ h
    · left
      unfold stepSim
      rw [arrivalPhase_nil htasks, execPhase_cons hq]
      simp
  · rcases hpos : rposition (arrived s.time) s.tasks with _ | i
    · rcases hq : s.q with _ | ⟨e, qrest⟩
      · right
        have hA := arrivalPhase_none htasks hpos
        have hE : execPhase { s with time := t0.queued_at } =
            { s with time := t0.queued_at } := execPhase_nil (by simp [hq])
        refine ⟨rfl, t0, List.mem_cons_self _ _, ?_⟩
        unfold stepSim
        rw [hA, hE]
      · left
        have hA := arrivalPhase_none htasks hpos
        have hE := @execPhase_cons { s with time := t0.queued_at } e qrest
          (by simp [hq])
        unfold stepSim
        rw [hA, hE]
        simp
    · left
      have hbatch : s.tasks.take (i + 1) ≠ [] := by
        rw [htasks, List.take_succ_cons]
        simp
      rcases hqe : btExtend s.q (s.tasks.take (i + 1)) with _ | ⟨e, qrest⟩
      · exact absurd hqe (btExtend_ne_nil (Or.inr hbatch))
      · have hA := arrivalPhase_some htasks hpos
        unfold stepSim
        rw [hA, execPhase_cons (by simpa using hqe)]
        simp

theorem arrival_time_mono (s : SimState) : s.time ≤ (arrivalPhase s).time := by
  rcases htasks : s.tasks with _ | ⟨t0, rest0⟩
  · rw [arrivalPhase_nil htasks]
  · rcases hpos : rposition (arrived s.time) s.tasks with _ | i
    · rw [arrivalPhase_none htasks hpos]
      have hh := rposition_none hpos t0 (by rw [htasks]; exact List.mem_cons_self _ _)
      unfold arrived at hh
      simp only [decide_eq_true_eq] at hh
      show s.time ≤ t0.queued_at
      omega
    · rw [arrivalPhase_some htasks hpos]

theorem time_mono_step {s : SimState} (hov : StepNoOverflow s) :
    s.time ≤ (stepSim s).time := by
  have h1 : s.time ≤ (arrivalPhase s).time := arrival_time_mono s
  have h2 : (arrivalPhase s).time ≤ (execPhase (arrivalPhase s)).time := by
    rcases hq : (arrivalPhase s).q with _ | ⟨e, qrest⟩
    · rw [execPhase_nil hq]
    · rw [execPhase_cons hq]
      unfold StepNoOverflow popOf at hov
      rw [hq] at hov
      simp only [List.head?] at hov
      show (arrivalPhase s).time ≤
        ((arrivalPhase s).time + e.2.execution_duration) % U32
      rw [Nat.mod_eq_of_lt hov]
      omega
  exact Nat.le_trans h1 h2

/-! ### The claims -/

/-- C2: for every input list of tasks with pairwise-distinct ids,
`execution_order` returns an output whose length equals the input length
and whose elements are a permutation of the input ids. -/
theorem c2_completeness (tasks : List Task)
    (hnd : (tasks.map Task.id).Nodup) :
    (execution_order tasks).length = tasks.length ∧
      (execution_order tasks).Perm (tasks.map Task.id) := by
  have h := execution_order_perm hnd
  refine ⟨?_, h⟩
  rw [h.length_eq, List.length_map]

/-- Witness for C2 at the concrete input `[(5,0,2), (6,1,1)]`. -/
theorem c2_witness :
    (execution_order [⟨5, 0, 2⟩, ⟨6, 1, 1⟩]).length =
        ([⟨5, 0, 2⟩, ⟨6, 1, 1⟩] : List Task).length ∧
      (execution_order [⟨5, 0, 2⟩, ⟨6, 1, 1⟩]).Perm
        (([⟨5, 0, 2⟩, ⟨6, 1, 1⟩] : List Task).map Task.id) :=
  c2_completeness [⟨5, 0, 2⟩, ⟨6, 1, 1⟩] (by decide)

/-- C5: for every finite input, the simulation loop terminates — within
`simMeasure` iterations both collections are exhausted and the output is
what `execution_order` returns — and every non-final iteration either
retires exactly one ready task or (ready set empty) advances the clock to
a point that admits a backlogged task. -/
theorem c5_termination (tasks : List Task) :
    ((stepN (initState tasks) (simMeasure (initState tasks))).tasks = [] ∧
      (stepN (initState tasks) (simMeasure (initState tasks))).q = []) ∧
    execution_order tasks =
      (stepN (initState tasks) (simMeasure (initState tasks))).executed ∧
    ∀ n, ¬((stepN (initState tasks) n).tasks = [] ∧
        (stepN (initState tasks) n).q = []) →
      ((stepN (initState tasks) (n + 1)).executed.length =
          (stepN (initState tasks) n).executed.length + 1 ∨
        ((stepN (initState tasks) n).q = [] ∧
          ∃ t ∈ (stepN (initState tasks) n).tasks,
            t.queued_at ≤ (stepN (initState tasks) (n + 1)).time)) := by
  refine ⟨stepN_done_of_measure_le _ _ (Nat.le_refl _),
    simLoopFuel_eq_stepN _ _ (Nat.le_refl _), fun n hnd => ?_⟩
  rw [stepN_succ]
  exact step_progress hnd

/-- Witness for C5 at the concrete input `[(5,0,2)]`, iteration 0. -/
theorem c5_witness :
    (stepN (initState [⟨5, 0, 2⟩]) (0 + 1)).executed.length =
        (stepN (initState [⟨5, 0, 2⟩]) 0).executed.length + 1 ∨
      ((stepN (initState [⟨5, 0, 2⟩]) 0).q = [] ∧
        ∃ t ∈ (stepN (initState [⟨5, 0, 2⟩]) 0).tasks,
          t.queued_at ≤ (stepN (initState [⟨5, 0, 2⟩]) (0 + 1)).time) :=
  (c5_termination [⟨5, 0, 2⟩]).2.2 0 (by decide)

/-- C7: along any run, as long as the u32 addition of a step does not
overflow, the clock never decreases across that loop iteration. -/
theorem c7_clock_monotone (tasks : List Task)
    (_hnd : (tasks.map Task.id).Nodup) (n : Nat)
    (hov : StepNoOverflow (stepN (initState tasks) n)) :
    (stepN (initState tasks) n).time ≤ (stepN (initState tasks) (n + 1)).time := by
  rw [stepN_succ]
  exact time_mono_step hov

/-- Witness for C7 at the concrete input `[(5,0,2)]`, iteration 0. -/
theorem c7_witness :
    (stepN (initState [⟨5, 0, 2⟩]) 0).time ≤
      (stepN (initState [⟨5, 0, 2⟩]) (0 + 1)).time :=
  c7_clock_monotone [⟨5, 0, 2⟩] (by decide) 0 (by decide)

/-- C8: `execution_order` returns exactly the outputs required by the
spec's concrete scenarios. -/
theorem c8_concrete_cases :
    execution_order [] = [] ∧
    execution_order [⟨42, 5, 3⟩, ⟨43, 2, 3⟩, ⟨44, 0, 2⟩] = [44, 43, 42] ∧
    execution_order [⟨42, 0, 3⟩, ⟨43, 1, 3⟩, ⟨44, 2, 2⟩] = [42, 44, 43] ∧
    execution_order [⟨42, 0, 1⟩, ⟨43, 3, 3⟩] = [42, 43] ∧
    execution_order [⟨42, 0, 3⟩, ⟨43, 1, 5⟩, ⟨44, 2, 6⟩, ⟨45, 5, 1⟩] =
      [42, 43, 45, 44] ∧
    execution_order [⟨42, 1, 3⟩, ⟨43, 1, 3⟩] = [42, 43] := by
  decide

/-- C10: on the input `[(1,0,2), (7,0,3), (7,2,3)]`, whose last two tasks
are distinct records with the same id and the same duration and are both
ready (arrived, unexecuted) at time 2, the second insertion overwrites the
first under the equal key `(3, 7)` and the output drops a task: only two
ids come out of three tasks. -/
theorem c10_duplicate_key_drops_task :
    execution_order [⟨1, 0, 2⟩, ⟨7, 0, 3⟩, ⟨7, 2, 3⟩] = [1, 7] ∧
      (execution_order [⟨1, 0, 2⟩, ⟨7, 0, 3⟩, ⟨7, 2, 3⟩]).length <
        ([⟨1, 0, 2⟩, ⟨7, 0, 3⟩, ⟨7, 2, 3⟩] : List Task).length := by
  decide

/-- C1 (evidence of the code bug): on `[(1,0,1), (2,0,4), (3,10,5),
(4,12,1)]`, after one loop iteration the ready set still holds task 2 and
the clock is 1, yet the next arrival scan jumps the clock to 10 (the
smallest remaining `queued_at`); the final output is `[1,2,4,3]` while
the spec's algorithm — and the retained original implementation — yields
`[1,2,3,4]`. -/
theorem c1_idle_jump_with_nonempty_ready :
    (stepN (initState [⟨1, 0, 1⟩, ⟨2, 0, 4⟩, ⟨3, 10, 5⟩, ⟨4, 12, 1⟩]) 1).q ≠ [] ∧
    (stepN (initState [⟨1, 0, 1⟩, ⟨2, 0, 4⟩, ⟨3, 10, 5⟩, ⟨4, 12, 1⟩]) 1).time = 1 ∧
    (arrivalPhase
      (stepN (initState [⟨1, 0, 1⟩, ⟨2, 0, 4⟩, ⟨3, 10, 5⟩, ⟨4, 12, 1⟩]) 1)).time = 10 ∧
    execution_order [⟨1, 0, 1⟩, ⟨2, 0, 4⟩, ⟨3, 10, 5⟩, ⟨4, 12, 1⟩] = [1, 2, 4, 3] ∧
    execution_order_original [⟨1, 0, 1⟩, ⟨2, 0, 4⟩, ⟨3, 10, 5⟩, ⟨4, 12, 1⟩] =
      [1, 2, 3, 4] := by
  decide

/-! ### No selection before arrival (C4) -/

theorem btExtend_subset {q : List (Key × Task)} {batch : List Task} {e : Key × Task}
    (h : e ∈ btExtend q batch) : (∃ t ∈ batch, e = (taskKey t, t)) ∨ e ∈ q := by
  induction batch generalizing q with
  | nil => exact Or.inr h
  | cons b rest ih =>
    rcases ih h with hb | hq
    · rcases hb with ⟨t, ht, rfl⟩
      exact Or.inl ⟨t, List.mem_cons_of_mem _ ht, rfl⟩
    · rcases btInsert_subset hq with rfl | hq
      · exact Or.inl ⟨b, List.mem_cons_self _ _, rfl⟩
      · exact Or.inr hq

/-- Every task sitting in the ready map arrived no later than the current
clock value. -/
def QTimeInv (s : SimState) : Prop := ∀ e ∈ s.q, e.2.queued_at ≤ s.time

theorem qtime_arrival {s : SimState} (hwf : WF s) (hq : QTimeInv s) :
    QTimeInv (arrivalPhase s) := by
  rcases htasks : s.tasks with _ | ⟨t0, rest0⟩
  · rw [arrivalPhase_nil htasks]
    exact hq
  · rcases hpos : rposition (arrived s.time) s.tasks with _ | i
    · rw [arrivalPhase_none htasks hpos]
      intro e he
      have h1 := hq e he
      have h2 : s.time ≤ t0.queued_at := by
        have hh := rposition_none hpos t0 (by rw [htasks]; exact List.mem_cons_self _ _)
        unfold arrived at hh
        simp only [decide_eq_true_eq] at hh
        omega
      show e.2.queued_at ≤ t0.queued_at
      omega
    · rw [arrivalPhase_some htasks hpos]
      intro e he
      show e.2.queued_at ≤ s.time
      rcases btExtend_subset he with ⟨t, ht, rfl⟩ | he'
      · have hh := rposition_take_arrived hwf.1 hpos t ht
        unfold arrived at hh
        simpa using hh
      · exact hq e he'

theorem qtime_exec {s : SimState} (hA : QTimeInv (arrivalPhase s))
    (hov : StepNoOverflow s) : QTimeInv (stepSim s) := by
  rcases hq : (arrivalPhase s).q with _ | ⟨e, qrest⟩
  · unfold stepSim
    rw [execPhase_nil hq]
    exact hA
  · unfold stepSim
    rw [execPhase_cons hq]
    intro e' he'
    unfold StepNoOverflow popOf at hov
    rw [hq] at hov
    simp only [List.head?] at hov
    have h1 : e'.2.queued_at ≤ (arrivalPhase s).time :=
      hA e' (by rw [hq]; exact List.mem_cons_of_mem _ he')
    show e'.2.queued_at ≤ ((arrivalPhase s).time + e.2.execution_duration) % U32
    rw [Nat.mod_eq_of_lt hov]
    omega

theorem c4_inv (tasks : List Task) (hnd : (tasks.map Task.id).Nodup)
    (hov : ∀ m, StepNoOverflow (stepN (initState tasks) m)) :
    ∀ n, WF (stepN (initState tasks) n) ∧ QTimeInv (stepN (initState tasks) n) := by
  intro n
  induction n with
  | zero =>
    refine ⟨wf_init hnd, fun e he => ?_⟩
    exact absurd he (by simp [initState, stepN])
  | succ n ih =>
    rw [stepN_succ]
    have hA := qtime_arrival ih.1 ih.2
    exact ⟨(wf_step ih.1).1, qtime_exec hA (hov n)⟩

theorem stepN_add (s : SimState) (a b : Nat) :
    stepN s (a + b) = stepN (stepN s a) b := by
  induction a generalizing s with
  | zero =>
    rw [Nat.zero_add]
    rfl
  | succ a ih =>
    have hc : a + 1 + b = (a + b) + 1 := by omega
    rw [hc]
    show stepN (stepSim s) (a + b) = _
    rw [ih]
    rfl

theorem stepNoOverflow_done {s : SimState} (ht : s.tasks = []) (hq : s.q = []) :
    StepNoOverflow s := by
  unfold StepNoOverflow popOf
  rw [arrivalPhase_nil ht, hq]
  simp

/-- If no step up to the loop's termination point overflows, no step at
all overflows (after termination the state is a fixed point and nothing is
popped). -/
theorem stepNoOverflow_all (s : SimState) (B : Nat)
    (h1 : ∀ m, m < B → StepNoOverflow (stepN s m))
    (h2 : (stepN s B).tasks = [] ∧ (stepN s B).q = []) :
    ∀ m, StepNoOverflow (stepN s m) := by
  intro m
  by_cases hm : m < B
  · exact h1 m hm
  · have hm2 : m = B + (m - B) := by omega
    rw [hm2, stepN_add, stepN_done h2.1 h2.2]
    exact stepNoOverflow_done h2.1 h2.2

/-- C4 (amended with the no-overflow side condition of §7): for every
input with pairwise-distinct ids, provided no clock-plus-duration addition
performed during the run overflows `u32`, whenever an iteration selects a
task for execution the clock at that moment is at least the task's
`queued_at`. -/
theorem c4_no_early_selection (tasks : List Task)
    (hnd : (tasks.map Task.id).Nodup)
    (hov : ∀ m, StepNoOverflow (stepN (initState tasks) m)) :
    ∀ (n : Nat) (k : Key) (t : Task),
      popOf (stepN (initState tasks) n) = some (k, t) →
      t.queued_at ≤ (arrivalPhase (stepN (initState tasks) n)).time := by
  intro n k t hpop
  have hinv := c4_inv tasks hnd hov n
  have hA := qtime_arrival hinv.1 hinv.2
  unfold popOf at hpop
  rcases hq : (arrivalPhase (stepN (initState tasks) n)).q with _ | ⟨e, qrest⟩
  · rw [hq] at hpop
    exact absurd hpop (by simp)
  · rw [hq] at hpop
    simp only [List.head?, Option.some.injEq] at hpop
    have h1 := hA e (by rw [hq]; exact List.mem_cons_self _ _)
    rw [hpop] at h1
    exact h1

/-- Witness for C4 (amended) at the concrete input `[(5,0,2)]`. -/
theorem c4_witness :
    (⟨5, 0, 2⟩ : Task).queued_at ≤
      (arrivalPhase (stepN (initState [⟨5, 0, 2⟩]) 0)).time :=
  c4_no_early_selection [⟨5, 0, 2⟩] (by decide)
    (stepNoOverflow_all _ 2 (by decide) (by decide)) 0 (2, 5) ⟨5, 0, 2⟩ (by decide)

/-- C4 counterexample to the unamended claim: on
`[(3,0,100), (1,100,4294967245), (2,100,4294967295)]` (distinct ids), the
u32 clock wraps to 49 while task 2 — queued at time 100 — is still in the
ready map, and the third iteration then selects it with the clock at 49,
below its `queued_at`. -/
theorem c4_counterexample :
    popOf (stepN (initState
        [⟨3, 0, 100⟩, ⟨1, 100, 4294967245⟩, ⟨2, 100, 4294967295⟩]) 2) =
      some ((4294967295, 2), ⟨2, 100, 4294967295⟩) ∧
    (arrivalPhase (stepN (initState
        [⟨3, 0, 100⟩, ⟨1, 100, 4294967245⟩, ⟨2, 100, 4294967295⟩]) 2)).time = 49 ∧
    ¬ ((⟨2, 100, 4294967295⟩ : Task).queued_at ≤ 49) ∧
    (([⟨3, 0, 100⟩, ⟨1, 100, 4294967245⟩, ⟨2, 100, 4294967295⟩] : List Task).map
      Task.id).Nodup := by
  decide

/-! ### The original implementation (C9) -/

theorem minByDur_mem {l : List Task} {t : Task} (h : minByDur l = some t) : t ∈ l := by
  induction l generalizing t with
  | nil => cases h
  | cons a rest ih =>
    simp only [minByDur] at h
    rcases hm : minByDur rest with _ | m
    · rw [hm] at h
      injection h with h2
      rw [← h2]
      exact List.mem_cons_self _ _
    · rw [hm] at h
      have h' : (if a.execution_duration ≤ m.execution_duration
          then some a else some m) = some t := h
      by_cases hd : a.execution_duration ≤ m.execution_duration
      · rw [if_pos hd] at h'
        injection h' with h2
        rw [← h2]
        exact List.mem_cons_self _ _
      · rw [if_neg hd] at h'
        injection h' with h2
        rw [← h2]
        exact List.mem_cons_of_mem _ (ih hm)

theorem minByDur_eq_none {l : List Task} (h : minByDur l = none) : l = [] := by
  cases l with
  | nil => rfl
  | cons a rest =>
    exfalso
    simp only [minByDur] at h
    rcases hm : minByDur rest with _ | m
    · rw [hm] at h
      exact Option.noConfusion h
    · rw [hm] at h
      have h' : (if a.execution_duration ≤ m.execution_duration
          then some a else some m) = none := h
      by_cases hd : a.execution_duration ≤ m.execution_duration
      · rw [if_pos hd] at h'
        exact Option.noConfusion h'
      · rw [if_neg hd] at h'
        exact Option.noConfusion h'

theorem mem_of_mem_takeWhile {p : Task → Bool} {l : List Task} {t : Task}
    (h : t ∈ l.takeWhile p) : t ∈ l := by
  induction l with
  | nil => simp at h
  | cons a rest ih =>
    rw [List.takeWhile_cons] at h
    by_cases hp : p a
    · rw [if_pos hp] at h
      rcases List.mem_cons.mp h with rfl | h
      · exact List.mem_cons_self _ _
      · exact List.mem_cons_of_mem _ (ih h)
    · rw [if_neg hp] at h
      cases h

theorem removeFirstById_perm {i : Nat} {l : List Task} (h : i ∈ l.map Task.id) :
    (l.map Task.id).Perm (i :: (removeFirstById i l).map Task.id) := by
  induction l with
  | nil => simp at h
  | cons t rest ih =>
    by_cases hid : t.id = i
    · simp only [removeFirstById, if_pos hid, List.map_cons]
      rw [hid]
    · have h' : i ∈ rest.map Task.id := by
        rcases List.mem_cons.mp h with h | h
        · exact absurd h.symm hid
        · exact h
      simp only [removeFirstById, if_neg hid, List.map_cons]
      exact List.Perm.trans ((ih h').cons t.id) (List.Perm.swap i t.id _)

theorem origNone_head {time : Nat} {t0 : Task} {rest : List Task}
    (h : minByDur ((t0 :: rest).takeWhile (arrived time)) = none) :
    ¬ t0.queued_at ≤ time := by
  intro hle
  have he : (t0 :: rest).takeWhile (arrived time) = [] := minByDur_eq_none h
  rw [List.takeWhile_cons,
    if_pos (show arrived time t0 = true by unfold arrived; exact decide_eq_true hle)] at he
  cases he

/-- The analogue of `simMeasure` for the original implementation's loop. -/
def origMeasure (tasks : List Task) (time : Nat) : Nat :=
  2 * tasks.length +
    match tasks with
    | [] => 0
    | t0 :: _ => if t0.queued_at ≤ time then 0 else 1

theorem origMeasure_ge (tasks : List Task) (time : Nat) :
    2 * tasks.length ≤ origMeasure tasks time := by
  cases tasks with
  | nil =>
    show 2 * ([] : List Task).length ≤ 2 * ([] : List Task).length + 0
    omega
  | cons t0 rest =>
    show 2 * (t0 :: rest).length ≤
      2 * (t0 :: rest).length + (if t0.queued_at ≤ time then 0 else 1)
    split <;> omega

theorem origMeasure_le_bound (tasks : List Task) (time : Nat) :
    origMeasure tasks time ≤ 2 * tasks.length + 1 := by
  cases tasks with
  | nil =>
    show 2 * ([] : List Task).length + 0 ≤ 2 * ([] : List Task).length + 1
    omega
  | cons t0 rest =>
    show 2 * (t0 :: rest).length + (if t0.queued_at ≤ time then 0 else 1) ≤
      2 * (t0 :: rest).length + 1
    split <;> omega

theorem origLoopFuel_perm :
    ∀ (f : Nat) (tasks : List Task) (time : Nat) (result : List Nat),
    origMeasure tasks time ≤ f →
    (origLoopFuel f tasks time result).Perm (result ++ tasks.map Task.id) := by
  intro f
  induction f with
  | zero =>
    intro tasks time result hf
    cases tasks with
    | nil => simp [origLoopFuel]
    | cons t0 rest =>
      unfold origMeasure at hf
      simp only [List.length_cons] at hf
      split at hf <;> omega
  | succ f ih =>
    intro tasks time result hf
    cases tasks with
    | nil =>
      simp [origLoopFuel, minByDur]
    | cons t0 rest =>
      rcases hmin : minByDur ((t0 :: rest).takeWhile (arrived time)) with _ | ct
      · have hflag := origNone_head hmin
        simp only [origLoopFuel, hmin]
        refine ih _ _ _ ?_
        unfold origMeasure at hf ⊢
        simp only [List.length_cons] at hf ⊢
        rw [if_neg hflag] at hf
        rw [if_pos (Nat.le_refl _)]
        omega
      · have hct : ct ∈ t0 :: rest := mem_of_mem_takeWhile (minByDur_mem hmin)
        have hctid : ct.id ∈ (t0 :: rest).map Task.id := List.mem_map_of_mem _ hct
        have hperm := removeFirstById_perm hctid
        have hlen : (removeFirstById ct.id (t0 :: rest)).length + 1 =
            (t0 :: rest).length := by
          have hl := hperm.length_eq
          simp only [List.length_map, List.length_cons] at hl ⊢
          omega
        simp only [origLoopFuel, hmin, List.isEmpty_cons, Bool.false_eq_true,
          if_false]
        refine List.Perm.trans (ih _ _ _ ?_) ?_
        · refine Nat.le_trans (origMeasure_le_bound _ _) ?_
          have hge := origMeasure_ge (t0 :: rest) time
          simp only [List.length_cons] at hge hlen
          omega
        · have heq : (result ++ [ct.id]) ++
              (removeFirstById ct.id (t0 :: rest)).map Task.id =
              result ++ (ct.id :: (removeFirstById ct.id (t0 :: rest)).map Task.id) := by
            simp [List.append_assoc]
          rw [heq]
          exact List.Perm.append_left _ hperm.symm

/-- The output of `execution_order_original` is always a permutation of
the input ids. -/
theorem execution_order_original_perm (tasks : List Task) :
    (execution_order_original tasks).Perm (tasks.map Task.id) := by
  unfold execution_order_original
  by_cases he : tasks.isEmpty
  · rw [if_pos he]
    have hnil : tasks = [] := by simpa [List.isEmpty_iff] using he
    simp [hnil]
  · rw [if_neg he]
    have hlen : (sortTasks tasks).length = tasks.length :=
      (List.perm_insertionSort leQ tasks).length_eq
    refine (origLoopFuel_perm (2 * tasks.length + 1) (sortTasks tasks) 0 [] ?_).trans ?_
    · refine Nat.le_trans (origMeasure_le_bound _ _) ?_
      rw [hlen]
    · simpa using (List.perm_insertionSort leQ tasks).map Task.id

/-- C9 counterexample: on `[(43,0,3), (42,0,3)]` — distinct ids — the
rewritten implementation pops the ready map in `(duration, id)` order and
outputs `[42, 43]`, while the original breaks the duration tie by position
in the sorted backlog (`min_by_key` keeps the first minimum) and outputs
`[43, 42]`. -/
theorem c9_counterexample :
    execution_order [⟨43, 0, 3⟩, ⟨42, 0, 3⟩] = [42, 43] ∧
    execution_order_original [⟨43, 0, 3⟩, ⟨42, 0, 3⟩] = [43, 42] ∧
    (([⟨43, 0, 3⟩, ⟨42, 0, 3⟩] : List Task).map Task.id).Nodup ∧
    execution_order_original [⟨43, 0, 3⟩, ⟨42, 0, 3⟩] ≠
      execution_order [⟨43, 0, 3⟩, ⟨42, 0, 3⟩] := by
  decide

/-- C9 (amended): for every input with pairwise-distinct ids the two
implementations return permutations of the same ids (equal length, no id
missing or duplicated), but not always the same sequence. -/
theorem c9_same_id_multiset (tasks : List Task)
    (hnd : (tasks.map Task.id).Nodup) :
    (execution_order_original tasks).Perm (execution_order tasks) :=
  (execution_order_original_perm tasks).trans (execution_order_perm hnd).symm

/-- Witness for C9 (amended) at the concrete input `[(43,0,3), (42,0,3)]`. -/
theorem c9_witness :
    (execution_order_original [⟨43, 0, 3⟩, ⟨42, 0, 3⟩]).Perm
      (execution_order [⟨43, 0, 3⟩, ⟨42, 0, 3⟩]) :=
  c9_same_id_multiset [⟨43, 0, 3⟩, ⟨42, 0, 3⟩] (by decide)

/-! ### Tie-break ordering (C3) -/

theorem sorted_head_le_all {t : Task} {l : List Task}
    (hs : List.Pairwise leQ (t :: l)) {x : Task} (hx : x ∈ t :: l) :
    t.queued_at ≤ x.queued_at := by
  rcases List.mem_cons.mp hx with rfl | hx
  · exact Nat.le_refl _
  · exact (List.pairwise_cons.mp hs).1 x hx

theorem sorted_perm_head_eq {t1 t2 : Task} {l1 l2 : List Task}
    (hp : (t1 :: l1).Perm (t2 :: l2))
    (hs1 : List.Pairwise leQ (t1 :: l1)) (hs2 : List.Pairwise leQ (t2 :: l2)) :
    t1.queued_at = t2.queued_at := by
  have h1 : t1.queued_at ≤ t2.queued_at :=
    sorted_head_le_all hs1 (hp.mem_iff.mpr (List.mem_cons_self _ _))
  have h2 : t2.queued_at ≤ t1.queued_at :=
    sorted_head_le_all hs2 (hp.mem_iff.mp (List.mem_cons_self _ _))
  omega

theorem take_drop_filter {time : Nat} {l : List Task} {i : Nat}
    (hs : List.Pairwise leQ l) (hpos : rposition (arrived time) l = some i) :
    l.take (i + 1) = l.filter (arrived time) ∧
      l.drop (i + 1) = l.filter (fun t => ! arrived time t) := by
  have htake := rposition_take_arrived hs hpos
  have hdrop := rposition_drop hpos
  constructor
  · conv_rhs => rw [← List.take_append_drop (i + 1) l]
    rw [List.filter_append, List.filter_eq_self.mpr htake,
      List.filter_eq_nil_iff.mpr hdrop, List.append_nil]
  · conv_rhs => rw [← List.take_append_drop (i + 1) l]
    rw [List.filter_append]
    have h1 : (l.take (i + 1)).filter (fun t => ! arrived time t) = [] :=
      List.filter_eq_nil_iff.mpr (fun a ha => by simp [htake a ha])
    have h2 : (l.drop (i + 1)).filter (fun t => ! arrived time t) = l.drop (i + 1) :=
      List.filter_eq_self.mpr (fun a ha => by
        have hh := hdrop a ha
        simp only [Bool.not_eq_true] at hh
        simp [hh])
    rw [h1, h2, List.nil_append]

theorem rposition_none_perm {time : Nat} {l1 l2 : List Task} (hp : l1.Perm l2)
    (h : rposition (arrived time) l1 = none) :
    rposition (arrived time) l2 = none :=
  rposition_none_of fun x hx => rposition_none h x (hp.mem_iff.mpr hx)

/-- Two strictly key-sorted ready maps with the same entries are equal. -/
theorem qsorted_eq_of_perm {l1 l2 : List (Key × Task)} (hp : l1.Perm l2)
    (h1 : QSorted l1) (h2 : QSorted l2) : l1 = l2 := by
  induction l1 generalizing l2 with
  | nil =>
    rw [hp.symm.eq_nil]
  | cons a r1 ih =>
    cases l2 with
    | nil => exact absurd hp.eq_nil (by simp)
    | cons b r2 =>
      have ha : a ∈ b :: r2 := hp.mem_iff.mp (List.mem_cons_self _ _)
      have hb : b ∈ a :: r1 := hp.mem_iff.mpr (List.mem_cons_self _ _)
      have hab : a = b := by
        rcases qsorted_head_min h2 ha with h | h
        · exact h
        · rcases qsorted_head_min h1 hb with h' | h'
          · exact h'.symm
          · exact absurd h (keyLt_asymm h')
      subst hab
      have hr : r1.Perm r2 := (List.perm_cons a).mp hp
      have ht1 : QSorted r1 := by
        unfold QSorted at h1 ⊢
        exact (List.pairwise_cons.mp h1).2
      have ht2 : QSorted r2 := by
        unfold QSorted at h2 ⊢
        exact (List.pairwise_cons.mp h2).2
      rw [ih hr ht1 ht2]

/-- Fuel irrelevance: any fuel at least the measure gives the same
output. -/
theorem simLoopFuel_congr (f1 f2 : Nat) (s : SimState)
    (h1 : simMeasure s ≤ f1) (h2 : simMeasure s ≤ f2) :
    simLoopFuel f1 s = simLoopFuel f2 s := by
  rw [simLoopFuel_eq_stepN f1 s h1, simLoopFuel_eq_stepN f2 s h2]
  have hdone := stepN_done_of_measure_le (simMeasure s) s (Nat.le_refl _)
  have hsplit : ∀ f, simMeasure s ≤ f → stepN s f = stepN s (simMeasure s) := by
    intro f hf
    have hf2 : f = simMeasure s + (f - simMeasure s) := by omega
    rw [hf2, stepN_add, stepN_done hdone.1 hdone.2]
  rw [hsplit f1 h1, hsplit f2 h2]

/-- Bisimulation relation for C6: identical ready map, clock and output,
and backlogs that are sorted permutations of each other. -/
def C6Rel (s1 s2 : SimState) : Prop :=
  s1.q = s2.q ∧ s1.time = s2.time ∧ s1.executed = s2.executed ∧
    s1.tasks.Perm s2.tasks ∧ WF s1 ∧ WF s2

theorem c6_arrival {s1 s2 : SimState} (hR : C6Rel s1 s2) :
    C6Rel (arrivalPhase s1) (arrivalPhase s2) := by
  obtain ⟨hq, ht, he, hp, hw1, hw2⟩ := hR
  rcases htasks1 : s1.tasks with _ | ⟨t0, rest0⟩
  · have htasks2 : s2.tasks = [] := by
      have hp2 := hp
      rw [htasks1] at hp2
      exact hp2.symm.eq_nil
    rw [arrivalPhase_nil htasks1, arrivalPhase_nil htasks2]
    exact ⟨hq, ht, he, hp, hw1, hw2⟩
  · rcases htasks2 : s2.tasks with _ | ⟨u0, urest⟩
    · exfalso
      have hp2 := hp
      rw [htasks1, htasks2] at hp2
      exact absurd hp2.eq_nil (by simp)
    · rcases hpos1 : rposition (arrived s1.time) s1.tasks with _ | i1
      · have hpos2 : rposition (arrived s2.time) s2.tasks = none := by
          rw [← ht]
          exact rposition_none_perm hp hpos1
        rw [arrivalPhase_none htasks1 hpos1, arrivalPhase_none htasks2 hpos2]
        have hhead : t0.queued_at = u0.queued_at := by
          have hp2 := hp
          rw [htasks1, htasks2] at hp2
          have hs1 := hw1.1
          have hs2 := hw2.1
          rw [htasks1] at hs1
          rw [htasks2] at hs2
          exact sorted_perm_head_eq hp2 hs1 hs2
        exact ⟨hq, hhead, he, hp, hw1, hw2⟩
      · have hne2 : rposition (arrived s2.time) s2.tasks ≠ none := by
          intro h0
          rw [← ht] at h0
          have hcon := rposition_none_perm hp.symm h0
          rw [hpos1] at hcon
          cases hcon
        rcases hpos2 : rposition (arrived s2.time) s2.tasks with _ | i2
        · exact absurd hpos2 hne2
        · rw [arrivalPhase_some htasks1 hpos1, arrivalPhase_some htasks2 hpos2]
          obtain ⟨htake1, hdrop1⟩ := take_drop_filter hw1.1 hpos1
          obtain ⟨htake2, hdrop2⟩ := take_drop_filter hw2.1 hpos2
          have hbperm : (s1.tasks.take (i1 + 1)).Perm (s2.tasks.take (i2 + 1)) := by
            rw [htake1, htake2, ht]
            exact hp.filter _
          have hdperm : (s1.tasks.drop (i1 + 1)).Perm (s2.tasks.drop (i2 + 1)) := by
            rw [hdrop1, hdrop2, ht]
            exact hp.filter _
          have hnd1 : ((s1.tasks.take (i1 + 1)).map Task.id ++ qIds s1.q).Nodup :=
            wf_batch_nodup hw1.2.2.2 _
          have hnd2 : ((s2.tasks.take (i2 + 1)).map Task.id ++ qIds s2.q).Nodup :=
            wf_batch_nodup hw2.2.2.2 _
          have hqeq : btExtend s1.q (s1.tasks.take (i1 + 1)) =
              btExtend s2.q (s2.tasks.take (i2 + 1)) := by
            have hperm12 : (btExtend s1.q (s1.tasks.take (i1 + 1))).Perm
                (btExtend s2.q (s2.tasks.take (i2 + 1))) := by
              refine (btExtend_perm hw1.2.2.1 hnd1).trans
                (List.Perm.trans ?_ (btExtend_perm hw2.2.2.1 hnd2).symm)
              rw [hq]
              exact List.Perm.append_right _ (hbperm.map _)
            exact qsorted_eq_of_perm hperm12
              (btExtend_sorted hw1.2.1) (btExtend_sorted hw2.2.1)
          have hwa1 := (wf_arrival hw1).1
          have hwa2 := (wf_arrival hw2).1
          rw [arrivalPhase_some htasks1 hpos1] at hwa1
          rw [arrivalPhase_some htasks2 hpos2] at hwa2
          exact ⟨hqeq, ht, he, hdperm, hwa1, hwa2⟩

theorem c6_exec {s1 s2 : SimState} (hR : C6Rel s1 s2) :
    C6Rel (execPhase s1) (execPhase s2) := by
  obtain ⟨hq, ht, he, hp, hw1, hw2⟩ := hR
  rcases hq1 : s1.q with _ | ⟨e, qrest⟩
  · have hq2 : s2.q = [] := by rw [← hq, hq1]
    rw [execPhase_nil hq1, execPhase_nil hq2]
    exact ⟨hq, ht, he, hp, hw1, hw2⟩
  · have hq2 : s2.q = e :: qrest := by rw [← hq, hq1]
    have hwe1 := (wf_exec hw1).1
    have hwe2 := (wf_exec hw2).1
    rw [execPhase_cons hq1] at hwe1 ⊢
    rw [execPhase_cons hq2] at hwe2 ⊢
    exact ⟨rfl, by rw [ht], by rw [he], hp, hwe1, hwe2⟩

theorem c6_loop : ∀ (f : Nat) (s1 s2 : SimState), simMeasure s1 ≤ f →
    C6Rel s1 s2 → simLoopFuel f s1 = simLoopFuel f s2 := by
  intro f
  induction f with
  | zero =>
    intro s1 s2 hf hR
    exact hR.2.2.1
  | succ f ih =>
    intro s1 s2 hf hR
    have hlen : s1.tasks.length = s2.tasks.length := hR.2.2.2.1.length_eq
    unfold simLoopFuel
    by_cases hdn : s1.tasks.isEmpty && s1.q.isEmpty
    · have hdn' := hdn
      rw [Bool.and_eq_true, List.isEmpty_iff, List.isEmpty_iff] at hdn'
      have hdn2 : s2.tasks.isEmpty && s2.q.isEmpty := by
        rw [Bool.and_eq_true, List.isEmpty_iff, List.isEmpty_iff]
        have h0 : s2.tasks.length = 0 := by
          rw [← hlen, hdn'.1]
          rfl
        exact ⟨List.length_eq_zero.mp h0, by rw [← hR.1]; exact hdn'.2⟩
      rw [if_pos hdn, if_pos hdn2]
      exact hR.2.2.1
    · have hdn2 : ¬(s2.tasks.isEmpty && s2.q.isEmpty) := by
        intro hcon
        apply hdn
        rw [Bool.and_eq_true, List.isEmpty_iff, List.isEmpty_iff] at hcon ⊢
        have h0 : s1.tasks.length = 0 := by
          rw [hlen, hcon.1]
          rfl
        exact ⟨List.length_eq_zero.mp h0, by rw [hR.1]; exact hcon.2⟩
      rw [if_neg hdn, if_neg hdn2]
      have hnd : ¬(s1.tasks = [] ∧ s1.q = []) := by
        rintro ⟨ha, hb⟩
        exact hdn (by simp [ha, hb])
      have hm := measure_step_lt hnd
      exact ih _ _ (by omega) (c6_exec (c6_arrival hR))

/-- C6: for every input with pairwise-distinct ids, permuting the input
list never changes the output of `execution_order`. -/
theorem c6_input_order_irrelevant (tasks1 tasks2 : List Task)
    (hnd : (tasks1.map Task.id).Nodup) (hp : tasks1.Perm tasks2) :
    execution_order tasks1 = execution_order tasks2 := by
  have hnd2 : (tasks2.map Task.id).Nodup := (hp.map Task.id).nodup hnd
  have hR : C6Rel (initState tasks1) (initState tasks2) :=
    ⟨rfl, rfl, rfl,
      (List.perm_insertionSort leQ tasks1).trans
        (hp.trans (List.perm_insertionSort leQ tasks2).symm),
      wf_init hnd, wf_init hnd2⟩
  unfold execution_order
  rw [simLoopFuel_congr (simMeasure (initState tasks1))
      (max (simMeasure (initState tasks1)) (simMeasure (initState tasks2)))
      (initState tasks1) (Nat.le_refl _) (Nat.le_max_left _ _),
    simLoopFuel_congr (simMeasure (initState tasks2))
      (max (simMeasure (initState tasks1)) (simMeasure (initState tasks2)))
      (initState tasks2) (Nat.le_refl _) (Nat.le_max_right _ _)]
  exact c6_loop _ _ _ (Nat.le_max_left _ _) hR

/-- Witness for C6 at the concrete inputs `[(1,0,2), (2,1,1)]` and its
reversal. -/
theorem c6_witness :
    execution_order [⟨1, 0, 2⟩, ⟨2, 1, 1⟩] =
      execution_order [⟨2, 1, 1⟩, ⟨1, 0, 2⟩] :=
  c6_input_order_irrelevant [⟨1, 0, 2⟩, ⟨2, 1, 1⟩] [⟨2, 1, 1⟩, ⟨1, 0, 2⟩]
    (by decide) (by decide)

end Sched
